import Mathlib

/-!
Verification of the arithmetic local-search engine `sls::arith_base`
(src/src/ast/sls/sls_arith_base.h).

The numeric kernel `num_t` is modelled by `Int` (the integer instantiation,
`checked_int64`, without overflow). Variables are dense indices (`Nat`).
Method bodies that are declared in the header but whose implementation file
is not part of the sources are modelled from the specification; such
definitions carry a doc comment starting with `Modelled from the spec:`.
Members whose bodies are inline in the header (`get_ineq`, `is_tabu`,
`set_step`, `out_of_range`, `in_range`, `dec_weight`, the one-argument
`dtt` overload) are translated directly from that code.
-/

namespace SlsArith

/-- `enum class ineq_kind { EQ, LE, LT }` from the header. -/
inductive ineq_kind where
  | EQ
  | LE
  | LT
deriving DecidableEq

/-- `struct bound { bool is_strict; num_t value; }` from the header. -/
structure bound where
  is_strict : Bool
  value : Int
deriving DecidableEq

/-- The atom record `struct ineq : public linear_term`: linear arguments
`m_args` as (coefficient, variable) pairs, constant offset `m_coeff`,
comparison kind `m_op`, the bound constant of the comparison, and the
stored aggregate argument value `m_args_value`.  The nonlinear
decomposition fields are not needed for the linear distance claims. -/
structure Ineq where
  m_args : List (Int × Nat)
  m_coeff : Int
  m_op : ineq_kind
  m_bound : Int
  m_args_value : Int
deriving DecidableEq

/-- Modelled from the spec: the body of `ineq::is_true` (declared in the
header, implementation not among the sources).  The atom encodes
`args <= bound`, `args = bound`, `args < bound`, evaluated at the stored
aggregate argument value. -/
def Ineq.is_true (i : Ineq) : Bool :=
  match i.m_op with
  | ineq_kind.EQ => decide (i.m_args_value = i.m_bound)
  | ineq_kind.LE => decide (i.m_args_value ≤ i.m_bound)
  | ineq_kind.LT => decide (i.m_args_value < i.m_bound)

/-- Modelled from the spec: the body of
`dtt(bool sign, num_t const& args_value, ineq const& ineq)` (declared in
the header, implementation not among the sources).  `required` is the
truth value the atom must take.  Equality required true: `|v - bound|`;
required false: `0` if `v ≠ bound` else a minimal positive constant.
`≤`/`<` required true: `max(0, v - bound)` with a unit step for the strict
integer case; required false: `max(0, bound - v)` with symmetric
strictness handling. -/
def dtt (required : Bool) (args_value : Int) (i : Ineq) : Int :=
  match i.m_op, required with
  | ineq_kind.EQ, true => |args_value - i.m_bound|
  | ineq_kind.EQ, false => if args_value = i.m_bound then 1 else 0
  | ineq_kind.LE, true => max 0 (args_value - i.m_bound)
  | ineq_kind.LE, false => max 0 (i.m_bound - args_value + 1)
  | ineq_kind.LT, true => max 0 (args_value - i.m_bound + 1)
  | ineq_kind.LT, false => max 0 (i.m_bound - args_value)

/-- The one-argument overload, inline in the header:
`num_t dtt(bool sign, ineq const& ineq) const { return dtt(sign, ineq.m_args_value, ineq); }`. -/
def dttA (required : Bool) (i : Ineq) : Int :=
  dtt required i.m_args_value i

/-- Modelled from the spec: the linear contribution coefficient of
variable `x` in the atom (the linear term keeps at most one entry per
variable; summing the matching coefficients is the faithful total
version). -/
def coeff_of (i : Ineq) (x : Nat) : Int :=
  ((i.m_args.filter (fun p => decide (p.2 = x))).map Prod.fst).sum

/-- Modelled from the spec: the overload
`dtt(bool sign, ineq const& ineq, var_t v, num_t const& new_value)`:
evaluate after substituting a new value for one variable, recomputing only
that variable's linear contribution from the stored aggregate value. -/
def dtt_var (required : Bool) (i : Ineq) (vals : Nat → Int) (x : Nat)
    (new_value : Int) : Int :=
  dtt required (i.m_args_value + coeff_of i x * (new_value - vals x)) i

/-- Modelled from the spec: the overload
`dtt(bool sign, ineq const& ineq, num_t const& coeff, num_t const& delta)`:
the marginal effect of a given coefficient and delta, without touching
stored state. -/
def dtt_coeff (required : Bool) (i : Ineq) (c : Int) (delta : Int) : Int :=
  dtt required (i.m_args_value + c * delta) i

theorem sum_filter_coeff (l : List (Int × Nat)) (x : Nat) (c : Int)
    (hmem : (c, x) ∈ l) (hnodup : (l.map Prod.snd).Nodup) :
    ((l.filter (fun p => decide (p.2 = x))).map Prod.fst).sum = c := by
  induction l with
  | nil => cases hmem
  | cons p rest ih =>
    rw [List.map_cons, List.nodup_cons] at hnodup
    obtain ⟨hnotin, hnd⟩ := hnodup
    rcases List.mem_cons.mp hmem with heq | hmem2
    · subst heq
      have hrest : rest.filter (fun p => decide (p.2 = x)) = [] := by
        rw [List.filter_eq_nil_iff]
        intro q hq hq2
        exact hnotin (by
          have : q.2 = x := of_decide_eq_true hq2
          exact this ▸ List.mem_map.mpr ⟨q, hq, rfl⟩)
      simp [List.filter_cons, hrest]
    · have hx : x ∈ rest.map Prod.snd := List.mem_map.mpr ⟨(c, x), hmem2, rfl⟩
      have hne : ¬(p.2 = x) := fun h => hnotin (h ▸ hx)
      simp only [List.filter_cons, decide_eq_true_eq, if_neg hne]
      exact ih hmem2 hnd

theorem coeff_of_eq (i : Ineq) (x : Nat) (c : Int)
    (hmem : (c, x) ∈ i.m_args) (hnodup : (i.m_args.map Prod.snd).Nodup) :
    coeff_of i x = c :=
  sum_filter_coeff i.m_args x c hmem hnodup

/-- C1: for every atom and required truth value, the distance-to-truth at
the atom's stored aggregate argument value is exactly 0 when the atom has
the required truth value, and strictly positive otherwise. -/
theorem dtt_zero_iff_true (required : Bool) (i : Ineq) :
    (dttA required i = 0 ↔ i.is_true = required) ∧
    (i.is_true ≠ required → 0 < dttA required i) := by
  obtain ⟨args, coeff, op, bnd, av⟩ := i
  cases op <;> cases required <;>
    simp only [dttA, dtt, Ineq.is_true] <;>
    constructor
  · constructor
    · intro h
      split at h
      · omega
      · simp_all
    · intro h
      rw [if_neg (by simpa using h)]
  · intro h
    split
    · omega
    · simp_all
  · rw [abs_eq_zero, sub_eq_zero]
    constructor
    · intro h; simp [h]
    · intro h; simpa using h
  · intro h
    rw [abs_pos, sub_ne_zero]
    simpa using h
  · rw [max_eq_left_iff]
    constructor
    · intro h
      simp only [decide_eq_false_iff_not, not_le]
      omega
    · intro h
      simp only [decide_eq_false_iff_not, not_le] at h
      omega
  · intro h
    simp only [ne_eq, decide_eq_false_iff_not, not_le, Decidable.not_not] at h
    rw [lt_max_iff]
    omega
  · rw [max_eq_left_iff]
    constructor
    · intro h
      simp only [decide_eq_true_eq]
      omega
    · intro h
      simp only [decide_eq_true_eq] at h
      omega
  · intro h
    simp only [ne_eq, decide_eq_true_eq] at h
    rw [lt_max_iff]
    omega
  · rw [max_eq_left_iff]
    constructor
    · intro h
      simp only [decide_eq_false_iff_not, not_lt]
      omega
    · intro h
      simp only [decide_eq_false_iff_not, not_lt] at h
      omega
  · intro h
    simp only [ne_eq, decide_eq_false_iff_not, not_lt, Decidable.not_not] at h
    rw [lt_max_iff]
    omega
  · rw [max_eq_left_iff]
    constructor
    · intro h
      simp only [decide_eq_true_eq]
      omega
    · intro h
      simp only [decide_eq_true_eq] at h
      omega
  · intro h
    simp only [ne_eq, decide_eq_true_eq] at h
    rw [lt_max_iff]
    omega

/-- Witness for C1 at a concrete atom: the equality atom `v = 0` with
stored aggregate value 5 is not true, and its distance for required truth
is strictly positive. -/
theorem dtt_zero_iff_true_witness :
    0 < dttA true ⟨[], 0, ineq_kind.EQ, 0, 5⟩ ∧
    (dttA true ⟨[], 0, ineq_kind.EQ, 0, 5⟩ = 0 ↔
      (Ineq.is_true ⟨[], 0, ineq_kind.EQ, 0, 5⟩) = true) :=
  ⟨(dtt_zero_iff_true true ⟨[], 0, ineq_kind.EQ, 0, 5⟩).2 (by decide),
   (dtt_zero_iff_true true ⟨[], 0, ineq_kind.EQ, 0, 5⟩).1⟩

/-- C2: the three distance-to-truth evaluation forms agree pointwise: for
an atom whose linear term has pairwise distinct variables, a variable `x`
occurring with coefficient `c`, and any new value, the single-variable
substitution form equals the marginal coefficient/delta form at
`delta = new_value - vals x`; both collapse to the aggregate form when the
new value is the current value (delta 0). -/
theorem dtt_forms_agree (required : Bool) (i : Ineq) (vals : Nat → Int)
    (x : Nat) (c : Int) (n : Int)
    (hmem : (c, x) ∈ i.m_args) (hnodup : (i.m_args.map Prod.snd).Nodup) :
    dtt_var required i vals x n = dtt_coeff required i c (n - vals x) ∧
    dtt_var required i vals x (vals x) = dttA required i ∧
    dtt_coeff required i c 0 = dttA required i := by
  have hc : coeff_of i x = c := coeff_of_eq i x c hmem hnodup
  refine ⟨?_, ?_, ?_⟩
  · unfold dtt_var dtt_coeff
    rw [hc]
  · unfold dtt_var dttA
    rw [hc]
    norm_num
  · unfold dtt_coeff dttA
    norm_num

/-- Witness for C2 at a concrete atom `2*x0 + 3*x1 ≤ 10` with stored
aggregate value 8 and assignment `x0 = 1, x1 = 2`. -/
theorem dtt_forms_agree_witness :
    dtt_var true ⟨[(2, 0), (3, 1)], 0, ineq_kind.LE, 10, 8⟩
        (fun v => if v = 0 then 1 else 2) 1 7 =
      dtt_coeff true ⟨[(2, 0), (3, 1)], 0, ineq_kind.LE, 10, 8⟩ 3 (7 - 2) ∧
    dtt_coeff true ⟨[(2, 0), (3, 1)], 0, ineq_kind.LE, 10, 8⟩ 3 0 =
      dttA true ⟨[(2, 0), (3, 1)], 0, ineq_kind.LE, 10, 8⟩ :=
  ⟨(dtt_forms_agree true ⟨[(2, 0), (3, 1)], 0, ineq_kind.LE, 10, 8⟩
      (fun v => if v = 0 then 1 else 2) 1 3 7 (by decide) (by decide)).1,
   (dtt_forms_agree true ⟨[(2, 0), (3, 1)], 0, ineq_kind.LE, 10, 8⟩
      (fun v => if v = 0 then 1 else 2) 1 3 7 (by decide) (by decide)).2.2⟩

/-- The generic-operator tags of `op_def` needed here (`arith_op_kind` in
the source has more members; these suffice for the Term Definition model). -/
inductive arith_op where
  | OP_MOD
  | OP_IDIV
  | OP_ABS
deriving DecidableEq

/-- Modelled from the spec: generic operator evaluation with the
`x / 0 = 0` style convention (Euclidean division and remainder). -/
def eval_op (k : arith_op) (x y : Int) : Int :=
  match k with
  | arith_op.OP_MOD => Int.emod x y
  | arith_op.OP_IDIV => Int.ediv x y
  | arith_op.OP_ABS => |x|

/-- A Term Definition: one of `add_def` (linear sum, `struct add_def`),
`mul_def` (monomial, `struct mul_def` with (variable, power) pairs), or
`op_def` (generic operator, `struct op_def`), each binding the defined
variable `v` to its arguments. -/
inductive term_def where
  | add_def (v : Nat) (args : List (Int × Nat)) (c : Int)
  | mul_def (v : Nat) (monomial : List (Nat × Nat))
  | op_def (v : Nat) (k : arith_op) (arg1 arg2 : Nat)
deriving DecidableEq

/-- The variable a Term Definition defines (`m_var` in the source records). -/
def term_def.var : term_def → Nat
  | term_def.add_def v _ _ => v
  | term_def.mul_def v _ => v
  | term_def.op_def v _ _ _ => v

/-- The argument variables of a Term Definition. -/
def term_def.args : term_def → List Nat
  | term_def.add_def _ args _ => args.map Prod.snd
  | term_def.mul_def _ m => m.map Prod.fst
  | term_def.op_def _ _ a b => [a, b]

/-- Modelled from the spec: the value a Term Definition computes from its
arguments' current values (sum of coefficient-scaled arguments plus the
constant; product of powered arguments; generic operator application). -/
def eval_def (vals : Nat → Int) : term_def → Int
  | term_def.add_def _ args c => args.foldl (fun s p => s + p.1 * vals p.2) c
  | term_def.mul_def _ m => m.foldl (fun s p => s * vals p.1 ^ p.2) 1
  | term_def.op_def _ k a b => eval_op k (vals a) (vals b)

/-- Modelled from the spec: `eval_is_correct(var_t v)` — the stored value
of the defined variable equals the value recomputed from its arguments. -/
def eval_is_correct (vals : Nat → Int) (d : term_def) : Bool :=
  decide (vals d.var = eval_def vals d)

/-- Recompute every Term Definition in table order (registration creates
child variables first, so the table is in dependency order). -/
def recompute (vals : Nat → Int) (defs : List term_def) : Nat → Int :=
  defs.foldl (fun vs d => Function.update vs d.var (eval_def vs d)) vals

/-- Modelled from the spec: `apply_update` commits the new value for the
moved variable and recomputes dependent Term Definition values
transitively. -/
def apply_update (vals : Nat → Int) (defs : List term_def) (v : Nat)
    (n : Int) : Nat → Int :=
  recompute (Function.update vals v n) defs

theorem foldl_add_congr (vals1 vals2 : Nat → Int) (l : List (Int × Nat))
    (init : Int) (h : ∀ p ∈ l, vals1 p.2 = vals2 p.2) :
    l.foldl (fun s p => s + p.1 * vals1 p.2) init =
      l.foldl (fun s p => s + p.1 * vals2 p.2) init := by
  induction l generalizing init with
  | nil => rfl
  | cons p rest ih =>
    simp only [List.foldl_cons]
    rw [h p (List.mem_cons_self p rest)]
    exact ih _ (fun q hq => h q (List.mem_cons_of_mem p hq))

theorem foldl_mul_congr (vals1 vals2 : Nat → Int) (l : List (Nat × Nat))
    (init : Int) (h : ∀ p ∈ l, vals1 p.1 = vals2 p.1) :
    l.foldl (fun s p => s * vals1 p.1 ^ p.2) init =
      l.foldl (fun s p => s * vals2 p.1 ^ p.2) init := by
  induction l generalizing init with
  | nil => rfl
  | cons p rest ih =>
    simp only [List.foldl_cons]
    rw [h p (List.mem_cons_self p rest)]
    exact ih _ (fun q hq => h q (List.mem_cons_of_mem p hq))

theorem eval_def_congr (vals1 vals2 : Nat → Int) (d : term_def)
    (h : ∀ a ∈ d.args, vals1 a = vals2 a) :
    eval_def vals1 d = eval_def vals2 d := by
  cases d with
  | add_def v args c =>
    refine foldl_add_congr vals1 vals2 args c (fun p hp => ?_)
    exact h p.2 (List.mem_map.mpr ⟨p, hp, rfl⟩)
  | mul_def v m =>
    refine foldl_mul_congr vals1 vals2 m 1 (fun p hp => ?_)
    exact h p.1 (List.mem_map.mpr ⟨p, hp, rfl⟩)
  | op_def v k a b =>
    simp only [eval_def]
    rw [h a (by simp [term_def.args]), h b (by simp [term_def.args])]

theorem recompute_no_touch (defs : List term_def) (vals : Nat → Int)
    (n : Nat) (h : ∀ d ∈ defs, d.var ≠ n) :
    recompute vals defs n = vals n := by
  induction defs generalizing vals with
  | nil => rfl
  | cons d rest ih =>
    show recompute (Function.update vals d.var (eval_def vals d)) rest n = vals n
    rw [ih _ (fun q hq => h q (List.mem_cons_of_mem d hq)),
      Function.update_noteq (fun hn => h d (List.mem_cons_self d rest) hn.symm)]

theorem recompute_correct (defs : List term_def) :
    ∀ (vals : Nat → Int),
      (∀ d ∈ defs, ∀ a ∈ term_def.args d, a < term_def.var d) →
      defs.Pairwise (fun d1 d2 => term_def.var d1 < term_def.var d2) →
      ∀ d ∈ defs,
        recompute vals defs (term_def.var d) = eval_def (recompute vals defs) d := by
  induction defs with
  | nil => intro vals _ _ d hd; cases hd
  | cons d0 rest ih =>
    intro vals hargs hsorted d hd
    rw [List.pairwise_cons] at hsorted
    obtain ⟨hlt, hsorted2⟩ := hsorted
    have hrec : recompute vals (d0 :: rest) =
        recompute (Function.update vals d0.var (eval_def vals d0)) rest := rfl
    rcases List.mem_cons.mp hd with heq | hd2
    · subst heq
      rw [hrec]
      have hL : recompute (Function.update vals d.var (eval_def vals d)) rest d.var =
          eval_def vals d := by
        rw [recompute_no_touch rest _ d.var (fun q hq hv => by
          have := hlt q hq; omega), Function.update_same]
      rw [hL]
      have hR : eval_def (recompute (Function.update vals d.var (eval_def vals d)) rest) d =
          eval_def vals d := by
        refine Eq.trans (eval_def_congr _ (Function.update vals d.var (eval_def vals d)) d
          (fun a ha => ?_)) (eval_def_congr _ vals d (fun a ha => ?_))
        · refine recompute_no_touch rest _ a (fun q hq hv => ?_)
          have h1 := hargs d (List.mem_cons_self d rest) a ha
          have h2 := hlt q hq
          omega
        · have hne : a ≠ d.var := by
            have h1 := hargs d (List.mem_cons_self d rest) a ha
            omega
          exact Function.update_noteq hne _ _
      rw [hR]
    · rw [hrec]
      exact ih (Function.update vals d0.var (eval_def vals d0))
        (fun q hq => hargs q (List.mem_cons_of_mem d0 hq)) hsorted2 d hd2

/-- C3: after applying a move (committing a new value for one variable and
recomputing the Term Definition table in dependency order), every defined
variable's stored value equals the value recomputed from its arguments'
stored values — `eval_is_correct` holds for every Term Definition, so
there is no drift. -/
theorem apply_update_no_drift (vals : Nat → Int) (defs : List term_def)
    (v : Nat) (n : Int)
    (hargs : ∀ d ∈ defs, ∀ a ∈ term_def.args d, a < term_def.var d)
    (hsorted : defs.Pairwise (fun d1 d2 => term_def.var d1 < term_def.var d2)) :
    ∀ d ∈ defs, eval_is_correct (apply_update vals defs v n) d = true := by
  intro d hd
  have h := recompute_correct defs (Function.update vals v n) hargs hsorted d hd
  simp only [eval_is_correct, apply_update, decide_eq_true_eq]
  exact h

/-- Witness for C3: a table defining `x1 = 2*x0 + 3` and `x2 = x0 * x1`,
after the move setting `x0 := 5`, stores exactly the recomputed values. -/
theorem apply_update_no_drift_witness :
    eval_is_correct
      (apply_update (fun _ => 0)
        [term_def.add_def 1 [(2, 0)] 3, term_def.mul_def 2 [(0, 1), (1, 1)]] 0 5)
      (term_def.mul_def 2 [(0, 1), (1, 1)]) = true :=
  apply_update_no_drift (fun _ => 0)
    [term_def.add_def 1 [(2, 0)] 3, term_def.mul_def 2 [(0, 1), (1, 1)]] 0 5
    (by decide)
    (by simp [List.pairwise_cons, term_def.var])
    (term_def.mul_def 2 [(0, 1), (1, 1)]) (by simp)

/-- Arithmetic expression trees as handed over by the AST layer: atomic
terms (constants or foreign subterms), sums, products, and generic
operator applications. -/
inductive expr where
  | atom : Nat → expr
  | addE : expr → expr → expr
  | mulE : expr → expr → expr
  | opE : arith_op → expr → expr → expr
deriving DecidableEq

/-- The registration state: `m_expr2var` (expression-to-variable map),
`m_vars` (the variable table, holding the owning expression per
`var_info`), and the Term Definition tables `m_muls`, `m_adds`, `m_ops`. -/
structure Registry where
  m_expr2var : List (expr × Nat)
  m_vars : List expr
  m_muls : List (Nat × Nat × Nat)
  m_adds : List (Nat × Nat × Nat)
  m_ops : List (Nat × arith_op × Nat × Nat)
deriving DecidableEq

/-- Lookup an expression in `m_expr2var` (first match). -/
def find_var (s : Registry) (e : expr) : Option Nat :=
  (s.m_expr2var.find? (fun p => decide (p.1 = e))).map Prod.snd

/-- Modelled from the spec: `register_term`/`mk_var` (declared in the header,
implementation not among the sources).  Re-registering an expression
returns the existing variable; otherwise registration recursively creates
child variables first (dependency order), then allocates the next dense
index and the parent's Term Definition. -/
def register_term (s : Registry) : expr → Nat × Registry
  | expr.atom i =>
    match find_var s (expr.atom i) with
    | some v => (v, s)
    | none =>
      let v := s.m_vars.length
      (v, { s with m_expr2var := (expr.atom i, v) :: s.m_expr2var,
                   m_vars := s.m_vars ++ [expr.atom i] })
  | expr.addE a b =>
    match find_var s (expr.addE a b) with
    | some v => (v, s)
    | none =>
      let r1 := register_term s a
      let r2 := register_term r1.2 b
      let v := r2.2.m_vars.length
      (v, { r2.2 with m_expr2var := (expr.addE a b, v) :: r2.2.m_expr2var,
                      m_vars := r2.2.m_vars ++ [expr.addE a b],
                      m_adds := r2.2.m_adds ++ [(v, r1.1, r2.1)] })
  | expr.mulE a b =>
    match find_var s (expr.mulE a b) with
    | some v => (v, s)
    | none =>
      let r1 := register_term s a
      let r2 := register_term r1.2 b
      let v := r2.2.m_vars.length
      (v, { r2.2 with m_expr2var := (expr.mulE a b, v) :: r2.2.m_expr2var,
                      m_vars := r2.2.m_vars ++ [expr.mulE a b],
                      m_muls := r2.2.m_muls ++ [(v, r1.1, r2.1)] })
  | expr.opE k a b =>
    match find_var s (expr.opE k a b) with
    | some v => (v, s)
    | none =>
      let r1 := register_term s a
      let r2 := register_term r1.2 b
      let v := r2.2.m_vars.length
      (v, { r2.2 with m_expr2var := (expr.opE k a b, v) :: r2.2.m_expr2var,
                      m_vars := r2.2.m_vars ++ [expr.opE k a b],
                      m_ops := r2.2.m_ops ++ [(v, k, r1.1, r2.1)] })

theorem find_var_cons_self (l : List (expr × Nat)) (e : expr) (v : Nat)
    (s : Registry) (h : s.m_expr2var = (e, v) :: l) :
    find_var s e = some v := by
  unfold find_var
  rw [h]
  simp [List.find?]

theorem find_var_register_term (s : Registry) (e : expr) :
    find_var (register_term s e).2 e = some (register_term s e).1 := by
  cases e with
  | atom i =>
    cases h : find_var s (expr.atom i) with
    | some v => unfold register_term; rw [h]; exact h
    | none => unfold register_term; rw [h]; exact find_var_cons_self _ _ _ _ rfl
  | addE a b =>
    cases h : find_var s (expr.addE a b) with
    | some v => unfold register_term; rw [h]; exact h
    | none => unfold register_term; rw [h]; exact find_var_cons_self _ _ _ _ rfl
  | mulE a b =>
    cases h : find_var s (expr.mulE a b) with
    | some v => unfold register_term; rw [h]; exact h
    | none => unfold register_term; rw [h]; exact find_var_cons_self _ _ _ _ rfl
  | opE k a b =>
    cases h : find_var s (expr.opE k a b) with
    | some v => unfold register_term; rw [h]; exact h
    | none => unfold register_term; rw [h]; exact find_var_cons_self _ _ _ _ rfl

theorem register_term_hit (s : Registry) (e : expr) (v : Nat)
    (h : find_var s e = some v) : register_term s e = (v, s) := by
  cases e with
  | atom i => unfold register_term; rw [h]
  | addE a b => unfold register_term; rw [h]
  | mulE a b => unfold register_term; rw [h]
  | opE k a b => unfold register_term; rw [h]

/-- C4: registration is idempotent — registering the same expression a
second time returns the same dense variable index, leaves the whole state
(in particular the variable table and the Term Definition tables `m_muls`,
`m_adds`, `m_ops`) unchanged, so all table sizes are unchanged. -/
theorem register_term_idempotent (s : Registry) (e : expr) :
    (register_term (register_term s e).2 e).1 = (register_term s e).1 ∧
    (register_term (register_term s e).2 e).2 = (register_term s e).2 ∧
    (register_term (register_term s e).2 e).2.m_vars.length =
      (register_term s e).2.m_vars.length ∧
    (register_term (register_term s e).2 e).2.m_muls.length =
      (register_term s e).2.m_muls.length ∧
    (register_term (register_term s e).2 e).2.m_adds.length =
      (register_term s e).2.m_adds.length ∧
    (register_term (register_term s e).2 e).2.m_ops.length =
      (register_term s e).2.m_ops.length := by
  have h := register_term_hit (register_term s e).2 e (register_term s e).1
    (find_var_register_term s e)
  rw [h]
  exact ⟨rfl, rfl, rfl, rfl, rfl, rfl⟩

/-- Per-variable bound state used by `update`/`in_bounds`: optional lower
and upper bounds (`m_lo`, `m_hi`, each with a strictness flag) and the
current value. -/
structure var_bounds where
  m_lo : Option bound
  m_hi : Option bound
  m_value : Int
deriving DecidableEq

/-- Modelled from the spec: satisfaction of an optional lower bound,
respecting the strict/non-strict flag. -/
def sat_lo : Option bound → Int → Bool
  | none, _ => true
  | some b, n => if b.is_strict then decide (b.value < n) else decide (b.value ≤ n)

/-- Modelled from the spec: satisfaction of an optional upper bound,
respecting the strict/non-strict flag. -/
def sat_hi : Option bound → Int → Bool
  | none, _ => true
  | some b, n => if b.is_strict then decide (n < b.value) else decide (n ≤ b.value)

/-- Modelled from the spec: `in_bounds(var_t v, num_t const& value)`
(declared in the header, implementation not among the sources) — the
candidate value satisfies the variable's recorded bounds. -/
def in_bounds (v : var_bounds) (n : Int) : Bool :=
  sat_lo v.m_lo n && sat_hi v.m_hi n

/-- Modelled from the spec: `update(var_t v, num_t const& new_value)`
(declared in the header, implementation not among the sources) — commit
the new value when it respects the recorded bounds, otherwise reject and
leave the value unchanged. -/
def update (v : var_bounds) (new_value : Int) : Bool × var_bounds :=
  if in_bounds v new_value then (true, { v with m_value := new_value })
  else (false, v)

/-- C5: when both bounds of a variable are set, `update` never commits a
value outside them — either it rejects (returns false and the value is
unchanged) or the committed value satisfies the recorded bounds with
their strictness flags. -/
theorem update_respects_bounds (v : var_bounds) (n : Int) (bl bh : bound)
    (_hlo : v.m_lo = some bl) (_hhi : v.m_hi = some bh) :
    ((update v n).1 = false ∧ (update v n).2.m_value = v.m_value) ∨
    ((update v n).1 = true ∧ in_bounds v (update v n).2.m_value = true) := by
  unfold update
  by_cases h : in_bounds v n = true
  · right
    rw [if_pos h]
    exact ⟨rfl, h⟩
  · left
    rw [if_neg h]
    exact ⟨rfl, rfl⟩

/-- Witness for C5 at a variable bounded by `0 ≤ x ≤ 10` with value 3:
the in-range update to 7 commits within bounds, the out-of-range update
to 11 is rejected with the value unchanged. -/
theorem update_respects_bounds_witness :
    (((update ⟨some ⟨false, 0⟩, some ⟨false, 10⟩, 3⟩ 7).1 = false ∧
      (update ⟨some ⟨false, 0⟩, some ⟨false, 10⟩, 3⟩ 7).2.m_value = 3) ∨
     ((update ⟨some ⟨false, 0⟩, some ⟨false, 10⟩, 3⟩ 7).1 = true ∧
      in_bounds ⟨some ⟨false, 0⟩, some ⟨false, 10⟩, 3⟩
        (update ⟨some ⟨false, 0⟩, some ⟨false, 10⟩, 3⟩ 7).2.m_value = true)) ∧
    (((update ⟨some ⟨false, 0⟩, some ⟨false, 10⟩, 3⟩ 11).1 = false ∧
      (update ⟨some ⟨false, 0⟩, some ⟨false, 10⟩, 3⟩ 11).2.m_value = 3) ∨
     ((update ⟨some ⟨false, 0⟩, some ⟨false, 10⟩, 3⟩ 11).1 = true ∧
      in_bounds ⟨some ⟨false, 0⟩, some ⟨false, 10⟩, 3⟩
        (update ⟨some ⟨false, 0⟩, some ⟨false, 10⟩, 3⟩ 11).2.m_value = true)) :=
  ⟨update_respects_bounds ⟨some ⟨false, 0⟩, some ⟨false, 10⟩, 3⟩ 7
      ⟨false, 0⟩ ⟨false, 10⟩ rfl rfl,
   update_respects_bounds ⟨some ⟨false, 0⟩, some ⟨false, 10⟩, 3⟩ 11
      ⟨false, 0⟩ ⟨false, 10⟩ rfl rfl⟩

/-- The tabu bookkeeping of `var_info`:
`unsigned m_tabu_pos = 0, m_tabu_neg = 0; unsigned m_last_pos = 0, m_last_neg = 0;`. -/
structure tabu_info where
  m_tabu_pos : Nat
  m_tabu_neg : Nat
  m_last_pos : Nat
  m_last_neg : Nat
deriving DecidableEq

/-- Inline in the header: `var_info::is_tabu(unsigned step, num_t const& delta)`
returns `(delta > 0 ? m_tabu_pos : m_tabu_neg) > step`. -/
def is_tabu (vi : tabu_info) (step : Nat) (delta : Int) : Bool :=
  decide ((if delta > 0 then vi.m_tabu_pos else vi.m_tabu_neg) > step)

/-- Inline in the header: `var_info::set_step(unsigned step, unsigned tabu_step,
num_t const& delta)` — a positive delta sets `m_tabu_pos` and `m_last_pos`,
otherwise `m_tabu_neg` and `m_last_neg` are set. -/
def set_step (vi : tabu_info) (step tabu_step : Nat) (delta : Int) : tabu_info :=
  if delta > 0 then { vi with m_tabu_pos := tabu_step, m_last_pos := step }
  else { vi with m_tabu_neg := tabu_step, m_last_neg := step }

/-- Counterexample to C6 as stated: starting from a fresh variable, commit
a move with positive delta at step 0 and tabu expiry 10.  At step 5 the
tabu counter of that move (10) is still active, yet the reversing
candidate (delta -1) is not rejected by the tabu filter (`is_tabu` is
false); the same-sign candidate (delta 1) is the one rejected. -/
theorem is_tabu_not_reversal :
    (set_step ⟨0, 0, 0, 0⟩ 0 10 1).m_tabu_pos > 5 ∧
    is_tabu (set_step ⟨0, 0, 0, 0⟩ 0 10 1) 5 (-1) = false ∧
    is_tabu (set_step ⟨0, 0, 0, 0⟩ 0 10 1) 5 1 = true := by
  decide

/-- C6 amended: while the tabu-expiry counter recorded for a sign exceeds
the current step (the counter for a sign is set when a move with delta of
that sign is committed via `set_step`), any candidate move whose delta has
that same sign is rejected by the tabu filter `is_tabu`; a candidate
reversing the sign is governed only by the counter of its own sign. -/
theorem is_tabu_same_sign (vi : tabu_info) (step tabu_step step2 : Nat)
    (d d2 : Int) (hstep : step2 < tabu_step) :
    (0 < d → 0 < d2 →
      is_tabu (set_step vi step tabu_step d) step2 d2 = true) ∧
    (d ≤ 0 → d2 ≤ 0 →
      is_tabu (set_step vi step tabu_step d) step2 d2 = true) := by
  constructor
  · intro hd hd2
    unfold is_tabu set_step
    rw [if_pos hd, if_pos hd2]
    simpa using hstep
  · intro hd hd2
    unfold is_tabu set_step
    rw [if_neg (by omega), if_neg (by omega)]
    simpa using hstep

/-- Witness for the amended C6: after a positive move at step 0 with tabu
expiry 10, the positive candidate delta 2 is rejected at step 5. -/
theorem is_tabu_same_sign_witness :
    is_tabu (set_step ⟨0, 0, 0, 0⟩ 0 10 1) 5 2 = true :=
  (is_tabu_same_sign ⟨0, 0, 0, 0⟩ 0 10 5 1 2 (by decide)).1 (by decide) (by decide)

/-- The range bookkeeping of `var_info`: the symmetric search range
`m_range` (initialized to 100000000) and the out-of-range/in-range event
counters. -/
structure range_info where
  m_range : Int
  m_num_out_of_range : Nat
  m_num_in_range : Nat
deriving DecidableEq

/-- Inline in the header: `var_info::in_range(num_t const& n)` — inside the
symmetric range, or within `m_range` of a recorded lower or upper bound.
(The event-counting block in its body is compiled out with `#if 0`.) -/
def in_range (vi : range_info) (lo hi : Option bound) (n : Int) : Bool :=
  if -vi.m_range < n ∧ n < vi.m_range then true
  else
    let r1 := match lo with
      | some b => decide (n < b.value + vi.m_range)
      | none => false
    if r1 then r1
    else match hi with
      | some b => decide (n > b.value - vi.m_range)
      | none => false

/-- Inline in the header: `var_info::out_of_range()` — count the event and,
once the count reaches `1000 * (1 + m_num_in_range)`, double the range and
reset both counters. -/
def out_of_range (vi : range_info) : range_info :=
  let n := vi.m_num_out_of_range + 1
  if n < 1000 * (1 + vi.m_num_in_range) then
    { vi with m_num_out_of_range := n }
  else
    { m_range := vi.m_range * 2, m_num_out_of_range := 0, m_num_in_range := 0 }

theorem out_of_range_iterate (r : Int) (k : Nat) (hk : k < 1000) :
    out_of_range^[k] ⟨r, 0, 0⟩ = ⟨r, k, 0⟩ := by
  induction k with
  | zero => rfl
  | succ m ih =>
    rw [Function.iterate_succ_apply', ih (by omega)]
    unfold out_of_range
    rw [if_pos (show m + 1 < 1000 * (1 + 0) by omega)]

/-- C7: starting from fresh event counters, 1000 consecutive out-of-range
events (with no intervening in-range events) double the tracked search
range exactly once and reset the counters — local recovery by range
doubling. -/
theorem out_of_range_doubles (r : Int) :
    out_of_range^[1000] ⟨r, 0, 0⟩ = ⟨r * 2, 0, 0⟩ := by
  have h999 : out_of_range^[999] (⟨r, 0, 0⟩ : range_info) = ⟨r, 999, 0⟩ :=
    out_of_range_iterate r 999 (by omega)
  have : (1000 : Nat) = 999 + 1 := rfl
  rw [this, Function.iterate_succ_apply', h999]
  unfold out_of_range
  rw [if_neg (show ¬(999 + 1 < 1000 * (1 + 0)) by omega)]

/-- Modelled from the spec: `is_sat` (declared in the header,
implementation not among the sources) — a pure check over the registered
atoms, each paired with its required truth value: true iff every atom
currently evaluates to its required truth value under the stored values. -/
def is_sat (atoms : List (Bool × Ineq)) : Bool :=
  atoms.all (fun p => p.2.is_true == p.1)

/-- C8: `is_sat` returns true if and only if every registered atom
currently evaluates to its required truth value under the stored
aggregate values; as a pure function of the atom store it changes no
state. -/
theorem is_sat_iff (atoms : List (Bool × Ineq)) :
    is_sat atoms = true ↔ ∀ p ∈ atoms, p.2.is_true = p.1 := by
  simp [is_sat, List.all_eq_true, beq_iff_eq]

/-- Witness for C8: a store with the single true atom `5 ≤ 10` required
true is satisfied. -/
theorem is_sat_iff_witness :
    is_sat [(true, ⟨[], 0, ineq_kind.LE, 10, 5⟩)] = true :=
  (is_sat_iff [(true, ⟨[], 0, ineq_kind.LE, 10, 5⟩)]).mpr (by decide)

/-- Inline in the header: `dec_weight(expr* e)` sets
`weight = weight > paws_init ? weight - 1 : paws_init`. -/
def dec_weight (paws_init w : Nat) : Nat :=
  if w > paws_init then w - 1 else paws_init

/-- C9: the PAWS weight decrement has a floor — `dec_weight` subtracts one
when the weight is strictly above `paws_init`, sets exactly `paws_init`
otherwise (raising a weight below the floor to it), and therefore every
result, and every iterated sequence of calls, stays at or above
`paws_init`. -/
theorem dec_weight_floor (p w : Nat) :
    (p < w → dec_weight p w = w - 1) ∧
    (w ≤ p → dec_weight p w = p) ∧
    p ≤ dec_weight p w ∧
    (∀ n, 0 < n → p ≤ (dec_weight p)^[n] w) := by
  have hfloor : ∀ x, p ≤ dec_weight p x := by
    intro x
    unfold dec_weight
    split <;> omega
  refine ⟨?_, ?_, hfloor w, ?_⟩
  · intro h
    unfold dec_weight
    rw [if_pos h]
  · intro h
    unfold dec_weight
    rw [if_neg (by omega)]
  · intro n hn
    obtain ⟨m, rfl⟩ : ∃ m, n = m + 1 := ⟨n - 1, by omega⟩
    rw [Function.iterate_succ_apply']
    exact hfloor _

/-- Witness for C9 at the default floor 40: a weight of 45 decrements to
44, a weight of 30 below the floor is raised to 40, and ten decrements
from 45 stay at or above 40. -/
theorem dec_weight_floor_witness :
    dec_weight 40 45 = 44 ∧ dec_weight 40 30 = 40 ∧
    40 ≤ (dec_weight 40)^[10] 45 :=
  ⟨(dec_weight_floor 40 45).1 (by decide),
   (dec_weight_floor 40 30).2.1 (by decide),
   (dec_weight_floor 40 45).2.2.2 10 (by decide)⟩

/-- Inline in the header: `get_ineq(bv) { return m_ineqs.get(bv, nullptr); }`
over `scoped_ptr_vector<ineq> m_ineqs` — a slot may hold a null pointer
(no arithmetic inequality registered for that Boolean variable), and an
index past the end yields the supplied null default. -/
def get_ineq (m_ineqs : List (Option Ineq)) (bv : Nat) : Option Ineq :=
  m_ineqs.getD bv none

/-- C10: for every Boolean variable without a registered arithmetic
inequality — a slot holding null or an index past the end of the
inequality table — `get_ineq` returns the null pointer rather than
failing. -/
theorem get_ineq_null (l : List (Option Ineq)) (bv : Nat) :
    (l.length ≤ bv → get_ineq l bv = none) ∧
    (∀ h : bv < l.length, l.get ⟨bv, h⟩ = none → get_ineq l bv = none) := by
  constructor
  · intro h
    exact List.getD_eq_default l none h
  · intro h hnull
    unfold get_ineq
    rw [List.getD_eq_getElem?_getD, List.getElem?_eq_getElem h]
    simpa using hnull

/-- Witness for C10 on the table `[some atom, none]`: index 5 is past the
end and index 1 holds no inequality; both queries return null. -/
theorem get_ineq_null_witness :
    get_ineq [some ⟨[], 0, ineq_kind.LE, 0, 0⟩, none] 5 = none ∧
    get_ineq [some ⟨[], 0, ineq_kind.LE, 0, 0⟩, none] 1 = none :=
  ⟨(get_ineq_null [some ⟨[], 0, ineq_kind.LE, 0, 0⟩, none] 5).1 (by decide),
   (get_ineq_null [some ⟨[], 0, ineq_kind.LE, 0, 0⟩, none] 1).2
     (by decide) rfl⟩

end SlsArith
